import Mathlib

/-!
Verification of the text/graph synchronization core of reka.js
(`packages/react-code-editor/src/CodeEditor.tsx`).

The data model is a `Program` holding two keyed sequences (`globals` and
`components`).  Each sequence entry is modelled as an `Entry` carrying an
`id : Nat` — a token standing for the JavaScript object identity (two
distinct live objects carry distinct ids) — a `name` (the reconciliation
key) and an opaque `fields` payload standing for all remaining scalar and
subtree fields of the node.

The structural differ `_diffASTArrayTypes` is embedded as `mergePass`
(the `newComponents.forEach` loop that merges matches in place and records
unmatched entries with their indices), `insertPass` (the
`componentsToInsert.forEach` loop of `splice(index + i, 0, component)`
calls), and `removePass` (the `filter`/`splice(indexOf)` removal loop).
`diffAST` applies the differ to both sequences with name equality, as the
source does.

The directional synchronizer state (the React refs `currentStateRef`,
`currentCodeStringRef`, `isSynchingFromCodeMirror`,
`isSynchingFromExternal`, `isTypingRef` plus the live `reka.program` and
the CodeMirror document) is embedded as `SyncState`, and the three
callbacks `syncCodeToState`, `updateListener` (the
`EditorView.updateListener` body) and `onExternalChange` (with its
deferred body `externalSyncBody`) as explicit state transformers.  The
external collaborators (parser, printer, `t.Schema.fromJSON`) are
parameters, following the spec's treatment of them as interface contracts.
-/

namespace RekaSync

structure Entry where
  id : Nat
  name : String
  fields : String
deriving DecidableEq

/-- Modelled from the spec: `t.merge` (from `@rekajs/types`, not part of
the excerpted sources) merges the incoming node into the existing node in
place — "scalar fields are overwritten; subtree fields are merged
recursively by the same identity-preserving rule, falling back to full
replacement for opaque expression subtrees".  In this embedding the
existing object keeps its identity token and takes the incoming entry's
name and opaque field payload. -/
def merge (existing incoming : Entry) : Entry :=
  { id := existing.id, name := incoming.name, fields := incoming.fields }

/-- The key/equality function both call sites of `_diffASTArrayTypes`
pass: `(a, b) => a.name === b.name`. -/
def nameEq (a b : Entry) : Bool :=
  decide (a.name = b.name)

/-- `currentComponents.find((old) => isEqual(old, new))` followed by
`t.merge(existing, new)`: find the first match in the current sequence and
merge the incoming entry onto it in place; `none` when there is no match. -/
def mergeFirst (isEqual : Entry → Entry → Bool) (n : Entry) :
    List Entry → Option (List Entry)
  | [] => none
  | x :: xs =>
    if isEqual x n then some (merge x n :: xs)
    else (mergeFirst isEqual n xs).map (fun r => x :: r)

/-- The `newComponents.forEach((newComponent, i) => ...)` loop of
`_diffASTArrayTypes`: merge each incoming entry onto its first match in
the current sequence, or record it in `componentsToInsert` together with
its index in the incoming sequence. -/
def mergePass (isEqual : Entry → Entry → Bool) :
    List Entry → List Entry → Nat → List Entry × List (Entry × Nat)
  | cur, [], _ => (cur, [])
  | cur, n :: rest, i =>
    match mergeFirst isEqual n cur with
    | some cur' => mergePass isEqual cur' rest (i + 1)
    | none =>
      let r := mergePass isEqual cur rest (i + 1)
      (r.1, (n, i) :: r.2)

/-- JavaScript `Array.prototype.splice(start, 0, a)`: insert `a` at
position `start`, appending when `start` is at or beyond the end. -/
def insertClamp : Nat → Entry → List Entry → List Entry
  | 0, a, l => a :: l
  | _ + 1, a, [] => [a]
  | n + 1, a, x :: xs => x :: insertClamp n a xs

/-- The `componentsToInsert.forEach(([component, index], i) =>
currentComponents.splice(index + i, 0, component))` loop. -/
def insertPass : List Entry → List (Entry × Nat) → Nat → List Entry
  | cur, [], _ => cur
  | cur, (a, idx) :: rest, i => insertPass (insertClamp (idx + i) a cur) rest (i + 1)

/-- `splice(indexOf(component), 1)`: remove the first occurrence of the
given object (object identity is value identity here, ids being identity
tokens). -/
def eraseFirst : List Entry → Entry → List Entry
  | [], _ => []
  | x :: xs, a => if x = a then xs else x :: eraseFirst xs a

/-- The removal phase of `_diffASTArrayTypes`: collect the current entries
with no incoming counterpart (`filter` over the already-spliced array) and
remove each of them. -/
def removePass (isEqual : Entry → Entry → Bool) (cur inc : List Entry) :
    List Entry :=
  let toRemove := cur.filter (fun old => !(inc.any (fun n => isEqual old n)))
  toRemove.foldl (fun acc e => eraseFirst acc e) cur

/-- `_diffASTArrayTypes`: merge matches in place, splice the recorded
unmatched entries in, then remove entries whose key vanished. -/
def diffASTArrayTypes (isEqual : Entry → Entry → Bool)
    (cur inc : List Entry) : List Entry :=
  let r := mergePass isEqual cur inc 0
  removePass isEqual (insertPass r.1 r.2 0) inc

structure Program where
  globals : List Entry
  components : List Entry
deriving DecidableEq

/-- `diffAST`: apply `_diffASTArrayTypes` to the `globals` sequence and to
the `components` sequence, both keyed by `name` equality. -/
def diffAST (program newProgram : Program) : Program :=
  { globals := diffASTArrayTypes nameEq program.globals newProgram.globals,
    components := diffASTArrayTypes nameEq program.components newProgram.components }

/-- The status values reported through `onStatusChange`. -/
inductive ParserStatus where
  | parsing : ParserStatus
  | error (msg : String) : ParserStatus
  | success : ParserStatus
deriving DecidableEq

/-- The mutable state of the `CodeEditor` component: the cached
last-seen-from-text snapshot (`currentStateRef`), the live graph
(`reka.program`), the cached code string (`currentCodeStringRef`), the
CodeMirror document, and the three re-entrancy flags. -/
structure SyncState where
  cache : Program
  live : Program
  currentCodeString : String
  doc : String
  isSynchingFromCodeMirror : Bool
  isSynchingFromExternal : Bool
  isTyping : Bool
deriving DecidableEq

/-- The state in force while the text-to-graph pass is running:
`isSynchingFromCodeMirror.current = true` is set just before the
`reka.change` transaction and cleared only after the `try`/`catch`. -/
def midSyncState (s : SyncState) : SyncState :=
  { s with isSynchingFromCodeMirror := true }

/-- The debounced `syncCodeToState` callback.  `parse` stands for
`Parser.parseProgram`, returning the parsed program or the thrown error's
message.  Returns the state after the call together with the status value
passed to `onStatusChange` (if any). -/
def syncCodeToState (parse : String → Except String Program)
    (s : SyncState) (code : String) : SyncState × Option ParserStatus :=
  if s.isSynchingFromExternal then (s, none)
  else
    let s1 := midSyncState s
    match parse code with
    | Except.ok newAST =>
      let cache' := diffAST s1.cache newAST
      let live' := diffAST s1.live cache'
      ({ s1 with
          cache := cache'
          live := live'
          isSynchingFromCodeMirror := false
          isTyping := false },
        some ParserStatus.success)
    | Except.error msg =>
      ({ s1 with isSynchingFromCodeMirror := false, isTyping := false },
        some (ParserStatus.error msg))

/-- The `EditorView.updateListener` body.  `docChanged` is
`view.docChanged`; `s.doc` is the editor document the notification refers
to.  Returns the state, the status passed to `onStatusChange` (if any),
and whether the debounced `syncCodeToState` was (re)scheduled. -/
def updateListener (s : SyncState) (docChanged : Bool) :
    SyncState × Option ParserStatus × Bool :=
  if !docChanged || s.isSynchingFromExternal then (s, none, false)
  else
    ({ s with isTyping := true, currentCodeString := s.doc },
      some ParserStatus.parsing, true)

/-- The `onExternalChange` callback (minus its deferred body).  `hasView`
is whether `codemirrorView` is non-null.  Returns the state and whether
the graph-to-text microtask body was scheduled. -/
def onExternalChange (s : SyncState) (hasView : Bool) : SyncState × Bool :=
  if s.isSynchingFromCodeMirror || s.isTyping then (s, false)
  else if !hasView then (s, false)
  else if s.isSynchingFromExternal then (s, false)
  else ({ s with isSynchingFromExternal := true }, true)

/-- The wholesale text-replace transaction dispatched by the graph-to-text
body: `{ changes: { from: 0, to: doc.length, insert: newCode } }`. -/
structure TextReplace where
  fromPos : Nat
  toPos : Nat
  insert : String
deriving DecidableEq

/-- The deferred body of `onExternalChange` (the `Promise.resolve().then`
callback).  `print` stands for `Parser.stringify` and `fromJSON` for
`t.Schema.fromJSON` (a deep copy of the live graph).  Returns the state
after the body and the replace transaction dispatched to the editor (if
any); a dispatched transaction sets `doc` to the inserted text. -/
def externalSyncBody (print : Program → String)
    (fromJSON : Program → Program) (s : SyncState) :
    SyncState × Option TextReplace :=
  let oldCode := s.currentCodeString
  let newCode := print s.live
  if newCode = oldCode then
    ({ s with isSynchingFromExternal := false }, none)
  else
    ({ s with
        cache := fromJSON s.live
        currentCodeString := newCode
        doc := newCode
        isSynchingFromExternal := false },
      some { fromPos := 0, toPos := s.doc.length, insert := newCode })

/-- Names (keys) of a sequence, in order. -/
def namesOf (l : List Entry) : List String :=
  l.map (fun e => e.name)

/-- Identity tokens of a sequence, in order. -/
def idsOf (l : List Entry) : List Nat :=
  l.map (fun e => e.id)

/-- First entry with the given name, mirroring the `find` calls. -/
def findByName (l : List Entry) (nm : String) : Option Entry :=
  l.find? (fun e => decide (e.name = nm))

/-- What the merge phase does to a single current entry when keys are
unique: merge the (unique) incoming entry of the same name onto it, or
leave it alone. -/
def mergeMap (inc : List Entry) (e : Entry) : Entry :=
  match findByName inc e.name with
  | some n => merge e n
  | none => e

/-- `b` is a structural deep copy of `a`: same name and same field
contents, but (possibly) a different object identity. -/
def copies (a b : Entry) : Prop :=
  a.name = b.name ∧ a.fields = b.fields

theorem namesOf_cons (x : Entry) (l : List Entry) :
    namesOf (x :: l) = x.name :: namesOf l := rfl

theorem namesOf_append (l₁ l₂ : List Entry) :
    namesOf (l₁ ++ l₂) = namesOf l₁ ++ namesOf l₂ := by
  simp [namesOf]

theorem mem_namesOf {nm : String} {l : List Entry} :
    nm ∈ namesOf l ↔ ∃ e ∈ l, e.name = nm := by
  simp [namesOf]

theorem namesOf_filter (q : String → Bool) (l : List Entry) :
    namesOf (l.filter (fun e => q e.name)) = (namesOf l).filter q := by
  induction l with
  | nil => rfl
  | cons x xs ih =>
    by_cases h : q x.name
    · simp [namesOf_cons, List.filter_cons, h, ih]
    · simp only [Bool.not_eq_true] at h
      simp [namesOf_cons, List.filter_cons, h, ih]

theorem mergeFirst_eq_none {n : Entry} {l : List Entry} :
    mergeFirst nameEq n l = none ↔ n.name ∉ namesOf l := by
  induction l with
  | nil => simp [mergeFirst, namesOf]
  | cons x xs ih =>
    by_cases h : x.name = n.name
    · simp [mergeFirst, nameEq, h, namesOf_cons]
    · have h' : ¬(n.name = x.name) := fun hh => h hh.symm
      simp [mergeFirst, nameEq, h, namesOf_cons, h', ih]

theorem mergeFirst_names {n : Entry} {l l' : List Entry}
    (h : mergeFirst nameEq n l = some l') : namesOf l' = namesOf l := by
  induction l generalizing l' with
  | nil => simp [mergeFirst] at h
  | cons x xs ih =>
    by_cases hx : x.name = n.name
    · simp only [mergeFirst, nameEq, hx, decide_eq_true_eq, if_pos, Option.some.injEq] at h
      subst h
      simp [namesOf_cons, merge, hx]
    · rw [mergeFirst, if_neg (by simp [nameEq, hx]), Option.map_eq_some'] at h
      obtain ⟨r, hr, rfl⟩ := h
      simp [namesOf_cons, ih hr]

theorem map_mergeIf_eq_self {n : Entry} {l : List Entry}
    (h : ∀ e ∈ l, e.name ≠ n.name) :
    l.map (fun e => if e.name = n.name then merge e n else e) = l := by
  induction l with
  | nil => rfl
  | cons x xs ih =>
    have hx := h x (by simp)
    simp only [List.map_cons, if_neg hx, ih (fun e he => h e (by simp [he])), List.cons.injEq,
      and_self]

theorem mergeFirst_some_char {n : Entry} {l l' : List Entry}
    (hnd : (namesOf l).Nodup) (h : mergeFirst nameEq n l = some l') :
    l' = l.map (fun e => if e.name = n.name then merge e n else e) := by
  induction l generalizing l' with
  | nil => simp [mergeFirst] at h
  | cons x xs ih =>
    rw [namesOf_cons, List.nodup_cons] at hnd
    by_cases hx : x.name = n.name
    · simp only [mergeFirst, nameEq, hx, decide_eq_true_eq, if_pos, Option.some.injEq] at h
      subst h
      have hxs : ∀ e ∈ xs, e.name ≠ n.name := by
        intro e he hc
        apply hnd.1
        have : x.name = e.name := by rw [hx, ← hc]
        rw [this]
        exact mem_namesOf.2 ⟨e, he, rfl⟩
      simp [List.map_cons, if_pos hx, map_mergeIf_eq_self hxs]
    · rw [mergeFirst, if_neg (by simp [nameEq, hx]), Option.map_eq_some'] at h
      obtain ⟨r, hr, rfl⟩ := h
      simp [List.map_cons, if_neg hx, ih hnd.2 hr]

theorem mergePass_nil (cur : List Entry) (i : Nat) :
    mergePass nameEq cur [] i = (cur, []) := rfl

theorem mergePass_names (cur inc : List Entry) (i : Nat) :
    namesOf (mergePass nameEq cur inc i).1 = namesOf cur := by
  induction inc generalizing cur i with
  | nil => rfl
  | cons n rest ih =>
    cases hm : mergeFirst nameEq n cur with
    | none => simp [mergePass, hm, ih]
    | some cur' =>
      simp [mergePass, hm, ih, mergeFirst_names hm]

theorem mergePass_inserts (cur inc : List Entry) (i : Nat) :
    (mergePass nameEq cur inc i).2.map Prod.fst
      = inc.filter (fun n => decide (n.name ∉ namesOf cur)) := by
  induction inc generalizing cur i with
  | nil => rfl
  | cons n rest ih =>
    cases hm : mergeFirst nameEq n cur with
    | none =>
      have hmem : n.name ∉ namesOf cur := mergeFirst_eq_none.1 hm
      simp [mergePass, hm, List.filter_cons, hmem, ih]
    | some cur' =>
      have hmem : n.name ∈ namesOf cur := by
        by_contra hc
        rw [← mergeFirst_eq_none (n := n)] at hc
        rw [hm] at hc
        cases hc
      have hnames := mergeFirst_names hm
      simp [mergePass, hm, List.filter_cons, hmem, ih, hnames]

theorem findByName_cons (x : Entry) (l : List Entry) (nm : String) :
    findByName (x :: l) nm = if x.name = nm then some x else findByName l nm := by
  by_cases h : x.name = nm
  · simp [findByName, List.find?_cons, h]
  · simp [findByName, List.find?_cons, h]

theorem findByName_eq_none {l : List Entry} {nm : String} (h : nm ∉ namesOf l) :
    findByName l nm = none := by
  induction l with
  | nil => rfl
  | cons x xs ih =>
    rw [namesOf_cons, List.mem_cons] at h
    push_neg at h
    rw [findByName_cons, if_neg (fun hc => h.1 hc.symm)]
    exact ih h.2

theorem mergeMap_nil (e : Entry) : mergeMap [] e = e := rfl

theorem map_mergeMap_nil (l : List Entry) : l.map (mergeMap []) = l := by
  induction l with
  | nil => rfl
  | cons x xs ih => simp [mergeMap_nil, ih]

theorem mergeMap_cons_skip {n : Entry} {rest : List Entry} {e : Entry}
    (h : e.name ≠ n.name) : mergeMap (n :: rest) e = mergeMap rest e := by
  unfold mergeMap
  rw [findByName_cons, if_neg (fun hc => h hc.symm)]

theorem mergePass_fst_char {cur inc : List Entry} (i : Nat)
    (hc : (namesOf cur).Nodup) (hi : (namesOf inc).Nodup) :
    (mergePass nameEq cur inc i).1 = cur.map (mergeMap inc) := by
  induction inc generalizing cur i with
  | nil => simp [mergePass_nil, map_mergeMap_nil]
  | cons n rest ih =>
    rw [namesOf_cons, List.nodup_cons] at hi
    cases hm : mergeFirst nameEq n cur with
    | none =>
      have hmem : n.name ∉ namesOf cur := mergeFirst_eq_none.1 hm
      have step : cur.map (mergeMap rest) = cur.map (mergeMap (n :: rest)) := by
        apply List.map_congr_left
        intro e he
        have : e.name ≠ n.name := fun hc2 =>
          hmem (hc2 ▸ mem_namesOf.2 ⟨e, he, rfl⟩)
        rw [mergeMap_cons_skip this]
      simp only [mergePass, hm]
      rw [ih (i + 1) hc hi.2, step]
    | some cur' =>
      have hchar := mergeFirst_some_char hc hm
      have hnames := mergeFirst_names hm
      have hc' : (namesOf cur').Nodup := hnames ▸ hc
      simp only [mergePass, hm]
      rw [ih (i + 1) hc' hi.2, hchar, List.map_map]
      apply List.map_congr_left
      intro e he
      by_cases hx : e.name = n.name
      · have hfind : findByName rest n.name = none :=
          findByName_eq_none hi.1
        simp only [Function.comp_apply, if_pos hx]
        unfold mergeMap
        rw [findByName_cons, if_pos hx.symm]
        have : (merge e n).name = n.name := rfl
        rw [this, hfind]
      · simp only [Function.comp_apply, if_neg hx]
        rw [mergeMap_cons_skip hx]

theorem insertClamp_perm (n : Nat) (a : Entry) (l : List Entry) :
    (insertClamp n a l).Perm (a :: l) := by
  induction l generalizing n with
  | nil =>
    cases n with
    | zero => exact List.Perm.refl _
    | succ m => exact List.Perm.refl _
  | cons x xs ih =>
    cases n with
    | zero => exact List.Perm.refl _
    | succ m => exact ((ih m).cons x).trans (List.Perm.swap a x xs)

theorem insertPass_perm (cur : List Entry) (ins : List (Entry × Nat)) (i : Nat) :
    (insertPass cur ins i).Perm (cur ++ ins.map Prod.fst) := by
  induction ins generalizing cur i with
  | nil => simp [insertPass]
  | cons p rest ih =>
    obtain ⟨a, idx⟩ := p
    have h1 := ih (insertClamp (idx + i) a cur) (i + 1)
    have h2 := (insertClamp_perm (idx + i) a cur).append_right (rest.map Prod.fst)
    have h3 : ((a :: cur) ++ rest.map Prod.fst).Perm (cur ++ a :: rest.map Prod.fst) :=
      List.perm_middle.symm
    exact (h1.trans (h2.trans h3))

theorem insertClamp_at_append (l₁ l₂ : List Entry) (a : Entry) :
    insertClamp l₁.length a (l₁ ++ l₂) = l₁ ++ a :: l₂ := by
  induction l₁ with
  | nil => rfl
  | cons x xs ih => simp [insertClamp, ih]

theorem eraseFirst_cons_self (a : Entry) (t : List Entry) :
    eraseFirst (a :: t) a = t := by
  simp [eraseFirst]

theorem eraseFirst_append_right {l₁ : List Entry} {a : Entry}
    (l₂ : List Entry) (h : a ∉ l₁) :
    eraseFirst (l₁ ++ a :: l₂) a = l₁ ++ l₂ := by
  induction l₁ with
  | nil => simp [eraseFirst]
  | cons x xs ih =>
    have hx : x ≠ a := fun hc => h (hc ▸ List.mem_cons_self x xs)
    have hstep : eraseFirst (x :: (xs ++ a :: l₂)) a = x :: eraseFirst (xs ++ a :: l₂) a := by
      simp [eraseFirst, hx]
    simp only [List.cons_append, hstep, ih (fun hc => h (List.mem_cons_of_mem x hc))]

theorem foldl_eraseFirst_of_ne {a : Entry} (rem : List Entry)
    (t : List Entry) (h : ∀ e ∈ rem, e ≠ a) :
    rem.foldl (fun acc e => eraseFirst acc e) (a :: t)
      = a :: rem.foldl (fun acc e => eraseFirst acc e) t := by
  induction rem generalizing t with
  | nil => rfl
  | cons e rem' ih =>
    have he : e ≠ a := h e (by simp)
    have hne : a ≠ e := Ne.symm he
    have hstep : eraseFirst (a :: t) e = a :: eraseFirst t e := by
      simp [eraseFirst, hne]
    simp only [List.foldl_cons, hstep]
    exact ih _ (fun x hx => h x (by simp [hx]))

theorem foldl_eraseFirst_filter {p : Entry → Bool} {cur : List Entry}
    (h : (namesOf cur).Nodup) :
    (cur.filter (fun x => !p x)).foldl (fun acc e => eraseFirst acc e) cur
      = cur.filter p := by
  induction cur with
  | nil => rfl
  | cons a t ih =>
    rw [namesOf_cons, List.nodup_cons] at h
    have hne : ∀ e ∈ t.filter (fun x => !p x), e ≠ a := by
      intro e he hc
      subst hc
      exact h.1 (mem_namesOf.2 ⟨e, List.mem_of_mem_filter he, rfl⟩)
    by_cases hp : p a
    · have h1 : (a :: t).filter (fun x => !p x) = t.filter (fun x => !p x) := by
        simp [List.filter_cons, hp]
      rw [h1, foldl_eraseFirst_of_ne _ t hne, ih h.2]
      simp [List.filter_cons, hp]
    · have hp' : p a = false := by simpa using hp
      have h1 : (a :: t).filter (fun x => !p x) = a :: t.filter (fun x => !p x) := by
        simp [List.filter_cons, hp']
      rw [h1, List.foldl_cons, eraseFirst_cons_self, ih h.2]
      simp [List.filter_cons, hp']

theorem removePass_eq_filter {cur inc : List Entry} (h : (namesOf cur).Nodup) :
    removePass nameEq cur inc
      = cur.filter (fun old => inc.any (fun n => nameEq old n)) := by
  unfold removePass
  exact foldl_eraseFirst_filter h

theorem any_nameEq_iff {old : Entry} {inc : List Entry} :
    (inc.any (fun n => nameEq old n) = true) ↔ old.name ∈ namesOf inc := by
  simp only [List.any_eq_true, nameEq, decide_eq_true_eq]
  constructor
  · rintro ⟨n, hn, he⟩
    exact mem_namesOf.2 ⟨n, hn, he.symm⟩
  · intro hm
    obtain ⟨n, hn, he⟩ := mem_namesOf.1 hm
    exact ⟨n, hn, he.symm⟩

theorem diff_eq_filter_insertPass {cur inc : List Entry}
    (hc : (namesOf cur).Nodup) (hi : (namesOf inc).Nodup) :
    diffASTArrayTypes nameEq cur inc
      = (insertPass (mergePass nameEq cur inc 0).1
          (mergePass nameEq cur inc 0).2 0).filter
            (fun old => inc.any (fun n => nameEq old n)) := by
  unfold diffASTArrayTypes
  apply removePass_eq_filter
  have hperm := insertPass_perm (mergePass nameEq cur inc 0).1
    (mergePass nameEq cur inc 0).2 0
  have hnames : (namesOf (insertPass (mergePass nameEq cur inc 0).1
      (mergePass nameEq cur inc 0).2 0)).Perm
        (namesOf cur ++ (namesOf inc).filter (fun nm => decide (nm ∉ namesOf cur))) := by
    have h1 := hperm.map (fun e => e.name)
    rw [List.map_append] at h1
    have h2 : ((mergePass nameEq cur inc 0).1.map (fun e => e.name)) = namesOf cur :=
      mergePass_names cur inc 0
    have h3 : ((mergePass nameEq cur inc 0).2.map Prod.fst).map (fun e => e.name)
        = (namesOf inc).filter (fun nm => decide (nm ∉ namesOf cur)) := by
      rw [mergePass_inserts cur inc 0]
      exact namesOf_filter (fun nm => decide (nm ∉ namesOf cur)) inc
    rw [h2, h3] at h1
    exact h1
  apply hnames.symm.nodup
  rw [List.nodup_append]
  refine ⟨hc, (hi.filter _), ?_⟩
  intro nm hnm hnm2
  have := List.of_mem_filter hnm2
  simp only [decide_eq_true_eq] at this
  exact this hnm

theorem diff_names_perm {cur inc : List Entry}
    (hc : (namesOf cur).Nodup) (hi : (namesOf inc).Nodup) :
    (namesOf (diffASTArrayTypes nameEq cur inc)).Perm (namesOf inc) := by
  rw [diff_eq_filter_insertPass hc hi]
  have hq : ∀ old : Entry, (inc.any (fun n => nameEq old n)) =
      decide (old.name ∈ namesOf inc) := by
    intro old
    by_cases hm : old.name ∈ namesOf inc
    · simp [any_nameEq_iff.2 hm, hm]
    · have : ¬(inc.any (fun n => nameEq old n) = true) := fun hh => hm (any_nameEq_iff.1 hh)
      simp only [Bool.not_eq_true] at this
      simp [this, hm]
  have hfeq : ∀ l : List Entry, l.filter (fun old => inc.any (fun n => nameEq old n))
      = l.filter (fun old => decide (old.name ∈ namesOf inc)) := by
    intro l
    apply List.filter_congr
    intro e _
    exact hq e
  rw [hfeq]
  rw [namesOf_filter (fun nm => decide (nm ∈ namesOf inc))]
  have hperm := insertPass_perm (mergePass nameEq cur inc 0).1
    (mergePass nameEq cur inc 0).2 0
  have hnames : (namesOf (insertPass (mergePass nameEq cur inc 0).1
      (mergePass nameEq cur inc 0).2 0)).Perm
        (namesOf cur ++ (namesOf inc).filter (fun nm => decide (nm ∉ namesOf cur))) := by
    have h1 := hperm.map (fun e => e.name)
    rw [List.map_append] at h1
    have h2 : ((mergePass nameEq cur inc 0).1.map (fun e => e.name)) = namesOf cur :=
      mergePass_names cur inc 0
    have h3 : ((mergePass nameEq cur inc 0).2.map Prod.fst).map (fun e => e.name)
        = (namesOf inc).filter (fun nm => decide (nm ∉ namesOf cur)) := by
      rw [mergePass_inserts cur inc 0]
      exact namesOf_filter (fun nm => decide (nm ∉ namesOf cur)) inc
    rw [h2, h3] at h1
    exact h1
  have hstep := hnames.filter (fun nm => decide (nm ∈ namesOf inc))
  rw [List.filter_append] at hstep
  have hins : ((namesOf inc).filter (fun nm => decide (nm ∉ namesOf cur))).filter
      (fun nm => decide (nm ∈ namesOf inc))
      = (namesOf inc).filter (fun nm => decide (nm ∉ namesOf cur)) := by
    rw [List.filter_eq_self]
    intro nm hnm
    simp only [decide_eq_true_eq]
    exact List.mem_of_mem_filter hnm
  rw [hins] at hstep
  apply hstep.trans
  have hx : ((namesOf cur).filter (fun nm => decide (nm ∈ namesOf inc))).Perm
      ((namesOf inc).filter (fun nm => decide (nm ∈ namesOf cur))) := by
    rw [List.perm_ext_iff_of_nodup (hc.filter _) (hi.filter _)]
    intro nm
    constructor
    · intro hm
      have h1 := List.mem_of_mem_filter hm
      have h2 := List.of_mem_filter hm
      simp only [decide_eq_true_eq] at h2
      exact List.mem_filter.2 ⟨h2, by simpa using h1⟩
    · intro hm
      have h1 := List.mem_of_mem_filter hm
      have h2 := List.of_mem_filter hm
      simp only [decide_eq_true_eq] at h2
      exact List.mem_filter.2 ⟨h2, by simpa using h1⟩
  apply (hx.append_right _).trans
  have hnot : ((namesOf inc).filter (fun nm => decide (nm ∉ namesOf cur)))
      = (namesOf inc).filter (fun nm => !(decide (nm ∈ namesOf cur))) := by
    apply List.filter_congr
    intro nm _
    simp
  rw [hnot]
  exact List.filter_append_perm _ _

theorem diff_names_nodup {cur inc : List Entry}
    (hc : (namesOf cur).Nodup) (hi : (namesOf inc).Nodup) :
    (namesOf (diffASTArrayTypes nameEq cur inc)).Nodup :=
  (diff_names_perm hc hi).symm.nodup hi

theorem forall₂_copies_names {l l' : List Entry} (h : List.Forall₂ copies l l') :
    namesOf l = namesOf l' := by
  induction h with
  | nil => rfl
  | cons hc _ ih => simp [namesOf_cons, hc.1, ih]

theorem nodup_append_hname {pre tail : List Entry} {m : Entry}
    (h : (namesOf (pre ++ m :: tail)).Nodup) : ∀ e ∈ pre, e.name ≠ m.name := by
  rw [namesOf_append, namesOf_cons, List.nodup_append] at h
  intro e he hc
  exact h.2.2 (mem_namesOf.2 ⟨e, he, rfl⟩) (hc ▸ List.mem_cons_self _ _)

theorem mergeFirst_append_skip {n : Entry} {pre : List Entry} (l : List Entry)
    (h : ∀ e ∈ pre, e.name ≠ n.name) :
    mergeFirst nameEq n (pre ++ l)
      = (mergeFirst nameEq n l).map (fun r => pre ++ r) := by
  induction pre with
  | nil =>
    cases hm : mergeFirst nameEq n l <;> simp [hm]
  | cons x pre' ih =>
    have hx : x.name ≠ n.name := h x (by simp)
    have hx' : ¬(nameEq x n = true) := by simp [nameEq, hx]
    have ih' := ih (fun e he => h e (List.mem_cons_of_mem x he))
    simp only [List.cons_append, mergeFirst, List.append_eq]
    rw [if_neg hx', ih']
    cases hm : mergeFirst nameEq n l <;> rfl

theorem mergePass_copies {mid inc : List Entry} (h : List.Forall₂ copies mid inc) :
    ∀ (pre post : List Entry) (i : Nat),
    (namesOf (pre ++ (mid ++ post))).Nodup →
    mergePass nameEq (pre ++ (mid ++ post)) inc i = (pre ++ (mid ++ post), []) := by
  induction h with
  | nil =>
    intro pre post i _
    exact mergePass_nil _ _
  | @cons m n mid' rest hc _ ih =>
    intro pre post i hnd
    have hshape : (m :: mid') ++ post = m :: (mid' ++ post) := rfl
    rw [hshape] at hnd ⊢
    have hpre : ∀ e ∈ pre, e.name ≠ n.name := by
      intro e he
      rw [← hc.1]
      exact nodup_append_hname hnd e he
    have hname : nameEq m n = true := by simp [nameEq, hc.1]
    have hmerge : merge m n = m := by
      unfold merge
      rw [← hc.1, ← hc.2]
    have hhead : mergeFirst nameEq n (m :: (mid' ++ post))
        = some (m :: (mid' ++ post)) := by
      simp [mergeFirst, hname, hmerge]
    have hm : mergeFirst nameEq n (pre ++ (m :: (mid' ++ post)))
        = some (pre ++ (m :: (mid' ++ post))) := by
      rw [mergeFirst_append_skip _ hpre, hhead]
      rfl
    simp only [mergePass, hm]
    have hassoc : (pre ++ [m]) ++ (mid' ++ post) = pre ++ (m :: (mid' ++ post)) := by
      simp
    have := ih (pre ++ [m]) post (i + 1) (by rw [hassoc]; exact hnd)
    rw [hassoc] at this
    exact this

theorem mergePass_append (cur : List Entry) (a b : List Entry) (i : Nat) :
    mergePass nameEq cur (a ++ b) i
      = ((mergePass nameEq (mergePass nameEq cur a i).1 b (i + a.length)).1,
         (mergePass nameEq cur a i).2
           ++ (mergePass nameEq (mergePass nameEq cur a i).1 b (i + a.length)).2) := by
  induction a generalizing cur i with
  | nil => simp [mergePass_nil]
  | cons n rest ih =>
    have harith : i + 1 + rest.length = i + (n :: rest).length := by
      simp only [List.length_cons]
      omega
    cases hm : mergeFirst nameEq n cur with
    | some cur' =>
      simp only [List.cons_append, mergePass, hm, List.append_eq]
      rw [ih cur' (i + 1), harith]
    | none =>
      simp only [List.cons_append, mergePass, hm, List.append_eq]
      rw [ih cur (i + 1), harith]

theorem mergePass_single_new {cur : List Entry} {x : Entry} (i : Nat)
    (h : x.name ∉ namesOf cur) :
    mergePass nameEq cur [x] i = (cur, [(x, i)]) := by
  have hm : mergeFirst nameEq x cur = none := mergeFirst_eq_none.2 h
  simp [mergePass, hm, mergePass_nil]

theorem removePass_eq_self {cur inc : List Entry}
    (h : ∀ e ∈ cur, e.name ∈ namesOf inc) :
    removePass nameEq cur inc = cur := by
  unfold removePass
  have hfil : cur.filter (fun old => !(inc.any (fun n => nameEq old n))) = [] := by
    rw [List.filter_eq_nil_iff]
    intro a ha
    simp [any_nameEq_iff.2 (h a ha)]
  rw [hfil]
  rfl

theorem diff_copies_eq {l inc : List Entry} (hnd : (namesOf l).Nodup)
    (h : List.Forall₂ copies l inc) :
    diffASTArrayTypes nameEq l inc = l := by
  have hmp : mergePass nameEq l inc 0 = (l, []) := by
    have := mergePass_copies h [] [] 0 (by simpa using hnd)
    simpa using this
  have hnames := forall₂_copies_names h
  simp only [diffASTArrayTypes, hmp]
  show removePass nameEq (insertPass l [] 0) inc = l
  rw [show insertPass l [] 0 = l from rfl]
  apply removePass_eq_self
  intro e he
  rw [← hnames]
  exact mem_namesOf.2 ⟨e, he, rfl⟩

theorem diff_single_add {l₁ l₂ inc₁ inc₂ : List Entry} {x : Entry}
    (hnd : (namesOf (l₁ ++ l₂)).Nodup)
    (hx : x.name ∉ namesOf (l₁ ++ l₂))
    (h₁ : List.Forall₂ copies l₁ inc₁) (h₂ : List.Forall₂ copies l₂ inc₂) :
    diffASTArrayTypes nameEq (l₁ ++ l₂) (inc₁ ++ x :: inc₂) = l₁ ++ x :: l₂ := by
  have hn₁ := forall₂_copies_names h₁
  have hn₂ := forall₂_copies_names h₂
  have hmp₁ : mergePass nameEq (l₁ ++ l₂) inc₁ 0 = (l₁ ++ l₂, []) := by
    have := mergePass_copies h₁ [] l₂ 0 (by simpa using hnd)
    simpa using this
  have hmp₂ : mergePass nameEq (l₁ ++ l₂) inc₂ (0 + inc₁.length + 1)
      = (l₁ ++ l₂, []) := by
    have := mergePass_copies h₂ l₁ [] (0 + inc₁.length + 1) (by simpa using hnd)
    simpa using this
  have hstep : mergePass nameEq (l₁ ++ l₂) (x :: inc₂) (0 + inc₁.length)
      = (l₁ ++ l₂, [(x, 0 + inc₁.length)]) := by
    have hmf : mergeFirst nameEq x (l₁ ++ l₂) = none := mergeFirst_eq_none.2 hx
    simp only [mergePass, hmf, hmp₂]
  have hmp : mergePass nameEq (l₁ ++ l₂) (inc₁ ++ x :: inc₂) 0
      = (l₁ ++ l₂, [(x, 0 + inc₁.length)]) := by
    rw [mergePass_append, hmp₁]
    simp only [hstep, List.nil_append]
  have hlen : inc₁.length = l₁.length := (List.Forall₂.length_eq h₁).symm
  have hins : insertPass (l₁ ++ l₂) [(x, 0 + inc₁.length)] 0 = l₁ ++ x :: l₂ := by
    show insertPass (insertClamp (0 + inc₁.length + 0) x (l₁ ++ l₂)) [] 1 = _
    rw [show insertPass (insertClamp (0 + inc₁.length + 0) x (l₁ ++ l₂)) [] 1
        = insertClamp (0 + inc₁.length + 0) x (l₁ ++ l₂) from rfl]
    have : 0 + inc₁.length + 0 = l₁.length := by omega
    rw [this]
    exact insertClamp_at_append l₁ l₂ x
  simp only [diffASTArrayTypes, hmp, hins]
  apply removePass_eq_self
  intro e he
  rw [namesOf_append, namesOf_cons, ← hn₁, ← hn₂]
  rcases List.mem_append.1 he with h | h
  · exact List.mem_append_left _ (mem_namesOf.2 ⟨e, h, rfl⟩)
  · rcases List.mem_cons.1 h with rfl | h2
    · exact List.mem_append_right _ (List.mem_cons_self _ _)
    · exact List.mem_append_right _
        (List.mem_cons_of_mem _ (mem_namesOf.2 ⟨e, h2, rfl⟩))

theorem diff_single_remove {l₁ l₂ inc₁ inc₂ : List Entry} {y : Entry}
    (hnd : (namesOf (l₁ ++ y :: l₂)).Nodup)
    (h₁ : List.Forall₂ copies l₁ inc₁) (h₂ : List.Forall₂ copies l₂ inc₂) :
    diffASTArrayTypes nameEq (l₁ ++ y :: l₂) (inc₁ ++ inc₂) = l₁ ++ l₂ := by
  have hn₁ := forall₂_copies_names h₁
  have hn₂ := forall₂_copies_names h₂
  have hnd' := hnd
  rw [namesOf_append, namesOf_cons, List.nodup_append] at hnd'
  have hy₁ : y.name ∉ namesOf l₁ := fun hc =>
    hnd'.2.2 hc (List.mem_cons_self _ _)
  have hy₂ : y.name ∉ namesOf l₂ := (List.nodup_cons.1 hnd'.2.1).1
  have hmp₁ : mergePass nameEq (l₁ ++ y :: l₂) inc₁ 0 = (l₁ ++ y :: l₂, []) := by
    have := mergePass_copies h₁ [] (y :: l₂) 0 (by simpa using hnd)
    simpa using this
  have hmp₂ : mergePass nameEq (l₁ ++ y :: l₂) inc₂ (0 + inc₁.length)
      = (l₁ ++ y :: l₂, []) := by
    have := mergePass_copies h₂ (l₁ ++ [y]) [] (0 + inc₁.length)
      (by simpa using hnd)
    simpa using this
  have hmp : mergePass nameEq (l₁ ++ y :: l₂) (inc₁ ++ inc₂) 0
      = (l₁ ++ y :: l₂, []) := by
    rw [mergePass_append, hmp₁]
    simp only [hmp₂, List.append_nil]
  simp only [diffASTArrayTypes, hmp]
  rw [show insertPass (l₁ ++ y :: l₂) [] 0 = l₁ ++ y :: l₂ from rfl]
  unfold removePass
  have hyname : y.name ∉ namesOf (inc₁ ++ inc₂) := by
    rw [namesOf_append, ← hn₁, ← hn₂]
    intro hc
    rcases List.mem_append.1 hc with h | h
    · exact hy₁ h
    · exact hy₂ h
  have hfil : (l₁ ++ y :: l₂).filter
      (fun old => !((inc₁ ++ inc₂).any (fun n => nameEq old n))) = [y] := by
    have hin : ∀ e ∈ l₁ ++ l₂, e.name ∈ namesOf (inc₁ ++ inc₂) := by
      intro e he
      rw [namesOf_append, ← hn₁, ← hn₂]
      rcases List.mem_append.1 he with h | h
      · exact List.mem_append_left _ (mem_namesOf.2 ⟨e, h, rfl⟩)
      · exact List.mem_append_right _ (mem_namesOf.2 ⟨e, h, rfl⟩)
    rw [List.filter_append, List.filter_cons]
    have h1 : l₁.filter (fun old => !((inc₁ ++ inc₂).any (fun n => nameEq old n)))
        = [] := by
      rw [List.filter_eq_nil_iff]
      intro a ha
      simp [any_nameEq_iff.2 (hin a (List.mem_append_left _ ha))]
    have h2 : l₂.filter (fun old => !((inc₁ ++ inc₂).any (fun n => nameEq old n)))
        = [] := by
      rw [List.filter_eq_nil_iff]
      intro a ha
      simp [any_nameEq_iff.2 (hin a (List.mem_append_right _ ha))]
    have hany : ((inc₁ ++ inc₂).any (fun n => nameEq y n)) = false := by
      cases hb : (inc₁ ++ inc₂).any (fun n => nameEq y n) with
      | false => rfl
      | true => exact absurd (any_nameEq_iff.1 hb) hyname
    have h3 : (!((inc₁ ++ inc₂).any (fun n => nameEq y n))) = true := by
      rw [hany]
      rfl
    rw [h1, h2, if_pos h3]
    rfl
  rw [hfil]
  show eraseFirst (l₁ ++ y :: l₂) y = l₁ ++ l₂
  apply eraseFirst_append_right
  intro hc
  exact hy₁ (mem_namesOf.2 ⟨y, hc, rfl⟩)

theorem findByName_some_props {l : List Entry} {nm : String} {n : Entry}
    (h : findByName l nm = some n) : n ∈ l ∧ n.name = nm := by
  refine ⟨List.mem_of_find?_eq_some h, ?_⟩
  have := List.find?_some h
  simpa using this

theorem findByName_of_mem {l : List Entry} {e : Entry}
    (hnd : (namesOf l).Nodup) (he : e ∈ l) :
    findByName l e.name = some e := by
  induction l with
  | nil => cases he
  | cons x xs ih =>
    rw [namesOf_cons, List.nodup_cons] at hnd
    rcases List.mem_cons.1 he with rfl | hmem
    · rw [findByName_cons, if_pos rfl]
    · have hx : x.name ≠ e.name := by
        intro hc
        exact hnd.1 (hc ▸ mem_namesOf.2 ⟨e, hmem, rfl⟩)
      rw [findByName_cons, if_neg hx]
      exact ih hnd.2 hmem

theorem mergeMap_id (inc : List Entry) (e : Entry) :
    (mergeMap inc e).id = e.id := by
  unfold mergeMap
  cases findByName inc e.name <;> rfl

theorem diff_perm_char {cur inc : List Entry}
    (hc : (namesOf cur).Nodup) (hi : (namesOf inc).Nodup) :
    (diffASTArrayTypes nameEq cur inc).Perm
      ((cur.map (mergeMap inc)
          ++ inc.filter (fun n => decide (n.name ∉ namesOf cur))).filter
            (fun old => inc.any (fun n => nameEq old n))) := by
  rw [diff_eq_filter_insertPass hc hi]
  apply List.Perm.filter
  have hperm := insertPass_perm (mergePass nameEq cur inc 0).1
    (mergePass nameEq cur inc 0).2 0
  have heq : (mergePass nameEq cur inc 0).1
        ++ (mergePass nameEq cur inc 0).2.map Prod.fst
      = cur.map (mergeMap inc)
        ++ inc.filter (fun n => decide (n.name ∉ namesOf cur)) := by
    rw [mergePass_fst_char 0 hc hi, mergePass_inserts cur inc 0]
  rw [← heq]
  exact hperm

/-- The identity discipline the spec demands of `reconcile` on one keyed
sequence: matched entries survive with their identity and take the
incoming fields, entries are destroyed only when their key is absent from
the incoming sequence, and entries are created only for keys with no
match — created ones being the incoming objects themselves. -/
def identityPreserved (cur inc res : List Entry) : Prop :=
  (∀ e ∈ cur, ∀ n : Entry, findByName inc e.name = some n →
      ∃ e' ∈ res, e'.id = e.id ∧ e'.name = e.name ∧ e'.fields = n.fields) ∧
  (∀ e ∈ cur, e.name ∉ namesOf inc → ∀ x ∈ res, x.id ≠ e.id) ∧
  (∀ n ∈ inc, n.name ∉ namesOf cur → n ∈ res)

theorem diff_matched_mem {cur inc : List Entry}
    (hc : (namesOf cur).Nodup) (hi : (namesOf inc).Nodup)
    {e n : Entry} (he : e ∈ cur) (hfind : findByName inc e.name = some n) :
    ∃ e' ∈ diffASTArrayTypes nameEq cur inc,
      e'.id = e.id ∧ e'.name = e.name ∧ e'.fields = n.fields := by
  have hperm := diff_perm_char hc hi
  obtain ⟨hn_mem, hn_name⟩ := findByName_some_props hfind
  refine ⟨merge e n, ?_, rfl, ?_, rfl⟩
  · rw [hperm.mem_iff, List.mem_filter, List.mem_append]
    constructor
    · left
      refine List.mem_map.2 ⟨e, he, ?_⟩
      unfold mergeMap
      rw [hfind]
    · apply any_nameEq_iff.2
      show (merge e n).name ∈ namesOf inc
      have : (merge e n).name = n.name := rfl
      rw [this]
      exact mem_namesOf.2 ⟨n, hn_mem, rfl⟩
  · show (merge e n).name = e.name
    have : (merge e n).name = n.name := rfl
    rw [this, hn_name]

theorem diff_identity_preserved {cur inc : List Entry}
    (hc : (namesOf cur).Nodup) (hi : (namesOf inc).Nodup)
    (hids : (idsOf cur ++ idsOf inc).Nodup) :
    identityPreserved cur inc (diffASTArrayTypes nameEq cur inc) := by
  have hperm := diff_perm_char hc hi
  have hmem : ∀ x, x ∈ diffASTArrayTypes nameEq cur inc ↔
      (x ∈ cur.map (mergeMap inc)
          ∨ x ∈ inc.filter (fun n => decide (n.name ∉ namesOf cur)))
        ∧ inc.any (fun n => nameEq x n) = true := by
    intro x
    rw [hperm.mem_iff, List.mem_filter, List.mem_append]
  rw [List.nodup_append] at hids
  refine ⟨?_, ?_, ?_⟩
  · intro e he n hfind
    exact diff_matched_mem hc hi he hfind
  · intro e he hnot x hx he_id
    rw [hmem] at hx
    rcases hx.1 with hmap | hins
    · obtain ⟨c, hc_mem, rfl⟩ := List.mem_map.1 hmap
      have hcid : c.id = e.id := by rw [← mergeMap_id inc c, he_id]
      have hce : c = e := List.inj_on_of_nodup_map hids.1 hc_mem he hcid
      subst hce
      have : mergeMap inc c = c := by
        unfold mergeMap
        rw [findByName_eq_none ?_]
        intro hmem2
        obtain ⟨n, hn, hne⟩ := mem_namesOf.1 hmem2
        exact hnot (hne ▸ mem_namesOf.2 ⟨n, hn, rfl⟩)
      rw [this] at hx
      exact hnot (any_nameEq_iff.1 hx.2)
    · have hx_inc := List.mem_of_mem_filter hins
      have : x.id ∈ idsOf inc := List.mem_map.2 ⟨x, hx_inc, rfl⟩
      have : e.id ∈ idsOf inc := he_id ▸ this
      exact hids.2.2 (List.mem_map.2 ⟨e, he, rfl⟩) this
  · intro n hn hnot
    rw [hmem]
    constructor
    · right
      exact List.mem_filter.2 ⟨hn, by simpa using hnot⟩
    · exact any_nameEq_iff.2 (mem_namesOf.2 ⟨n, hn, rfl⟩)

/-- C1 counterexample: the claim asserts that after `reconcile` the
sequence of key names in `current` equals the sequence in `incoming`,
including for pure reorderings.  With `current` globals named `a, b` and
`incoming` globals named `b, a` (unique names on both sides, as the claim
requires), both entries match by key and are merged in place, no entry is
inserted or removed, and the resulting order stays `a, b` — not
`incoming`'s order `b, a`. -/
theorem c1_counterexample :
    ((namesOf [(⟨1, "a", "fa"⟩ : Entry), ⟨2, "b", "fb"⟩]).Nodup
      ∧ (namesOf [(⟨3, "b", "fb"⟩ : Entry), ⟨4, "a", "fa"⟩]).Nodup)
    ∧ namesOf (diffAST ⟨[⟨1, "a", "fa"⟩, ⟨2, "b", "fb"⟩], []⟩
        ⟨[⟨3, "b", "fb"⟩, ⟨4, "a", "fa"⟩], []⟩).globals
      ≠ namesOf [(⟨3, "b", "fb"⟩ : Entry), ⟨4, "a", "fa"⟩] := by decide

/-- C1 (amended): for every pair of Program trees whose Global and
Component sequences each have unique names, after `reconcile(current,
incoming)` the multiset of names in `current`'s globals equals the
multiset of names in `incoming`'s globals (each key exactly once), and
likewise for components — the key sets match, but the merger never
reorders matched entries, so the order need not match `incoming`'s. -/
theorem c1_theorem (p q : Program)
    (hg : (namesOf p.globals).Nodup) (hg' : (namesOf q.globals).Nodup)
    (hcm : (namesOf p.components).Nodup) (hcm' : (namesOf q.components).Nodup) :
    (namesOf (diffAST p q).globals).Perm (namesOf q.globals)
      ∧ (namesOf (diffAST p q).components).Perm (namesOf q.components) :=
  ⟨diff_names_perm hg hg', diff_names_perm hcm hcm'⟩

/-- C1 witness: the amended theorem evaluated at a concrete reordering
pair. -/
theorem c1_theorem_witness :
    (namesOf (diffAST ⟨[⟨1, "a", "fa"⟩, ⟨2, "b", "fb"⟩], [⟨5, "App", "x"⟩]⟩
        ⟨[⟨3, "b", "fb2"⟩, ⟨4, "a", "fa2"⟩], [⟨6, "App", "y"⟩]⟩).globals).Perm
      (namesOf [(⟨3, "b", "fb2"⟩ : Entry), ⟨4, "a", "fa2"⟩])
    ∧ (namesOf (diffAST ⟨[⟨1, "a", "fa"⟩, ⟨2, "b", "fb"⟩], [⟨5, "App", "x"⟩]⟩
        ⟨[⟨3, "b", "fb2"⟩, ⟨4, "a", "fa2"⟩], [⟨6, "App", "y"⟩]⟩).components).Perm
      (namesOf [(⟨6, "App", "y"⟩ : Entry)]) :=
  c1_theorem ⟨[⟨1, "a", "fa"⟩, ⟨2, "b", "fb"⟩], [⟨5, "App", "x"⟩]⟩
    ⟨[⟨3, "b", "fb2"⟩, ⟨4, "a", "fa2"⟩], [⟨6, "App", "y"⟩]⟩
    (by decide) (by decide) (by decide) (by decide)

/-- C3 counterexample: the claim asserts that `reconcile` fails fast with
an internal-consistency error when `incoming` holds two entries with the
same key.  The source has no duplicate check and no failure path: with
`current` holding one global `a` and `incoming` holding two globals both
named `a`, both duplicates are merged in sequence onto the single match
and the call returns normally — the last duplicate's fields win and no
error of any kind is reported. -/
theorem c3_counterexample :
    diffAST ⟨[⟨1, "a", "f1"⟩], []⟩ ⟨[⟨2, "a", "g1"⟩, ⟨3, "a", "g2"⟩], []⟩
      = ⟨[⟨1, "a", "g2"⟩], []⟩ := by decide

/-- C3 (amended): `reconcile` performs no duplicate-key check and reports
no error: when the incoming sequence holds two entries with the same key
and that key matches an entry of `current`, both duplicates are silently
merged in order onto the matched entry, so the last duplicate's fields
win and the call returns normally. -/
theorem c3_theorem (e a b : Entry) (ha : a.name = e.name) (hb : b.name = e.name) :
    diffASTArrayTypes nameEq [e] [a, b]
      = [{ id := e.id, name := b.name, fields := b.fields }] := by
  have h1 : mergeFirst nameEq a [e] = some [merge e a] := by
    have hna : nameEq e a = true := by simp [nameEq, ha]
    simp [mergeFirst, hna]
  have h2 : mergeFirst nameEq b [merge e a] = some [merge (merge e a) b] := by
    have hnb : nameEq (merge e a) b = true := by simp [nameEq, merge, ha, hb]
    simp [mergeFirst, hnb]
  have h3 : mergePass nameEq [e] [a, b] 0 = ([merge (merge e a) b], []) := by
    simp [mergePass, h1, h2, mergePass_nil]
  have h5 : removePass nameEq [merge (merge e a) b] [a, b]
      = [merge (merge e a) b] := by
    apply removePass_eq_self
    intro x hx
    rw [List.mem_singleton] at hx
    subst hx
    show (merge (merge e a) b).name ∈ namesOf [a, b]
    simp [namesOf, merge]
  simp only [diffASTArrayTypes, h3]
  rw [show insertPass [merge (merge e a) b] [] 0 = [merge (merge e a) b] from rfl, h5]
  rfl

/-- C3 witness: the amended theorem evaluated at a concrete duplicate
pair. -/
theorem c3_theorem_witness :
    diffASTArrayTypes nameEq [(⟨1, "a", "f1"⟩ : Entry)]
        [⟨2, "a", "g1"⟩, ⟨3, "a", "g2"⟩]
      = [{ id := 1, name := "a", fields := "g2" }] :=
  c3_theorem ⟨1, "a", "f1"⟩ ⟨2, "a", "g1"⟩ ⟨3, "a", "g2"⟩ (by decide) (by decide)

/-- C4: for every pair of trees with unique keys (and globally distinct
object identities), every Global or Component entry of `current` whose
name appears in `incoming` survives `reconcile` with its identity token
and takes the matched incoming entry's fields; an entry's identity
disappears from the result only when its key is absent from `incoming`;
and a new object appears only for an incoming key with no match — that
object being the incoming entry itself, not a copy. -/
theorem c4_theorem (p q : Program)
    (hg : (namesOf p.globals).Nodup) (hg' : (namesOf q.globals).Nodup)
    (hcm : (namesOf p.components).Nodup) (hcm' : (namesOf q.components).Nodup)
    (hidg : (idsOf p.globals ++ idsOf q.globals).Nodup)
    (hidc : (idsOf p.components ++ idsOf q.components).Nodup) :
    identityPreserved p.globals q.globals (diffAST p q).globals
      ∧ identityPreserved p.components q.components (diffAST p q).components :=
  ⟨diff_identity_preserved hg hg' hidg, diff_identity_preserved hcm hcm' hidc⟩

/-- C4 witness: the theorem evaluated at the spec's `val text` scenario
(global `x` edited, global `y` added, component untouched). -/
theorem c4_theorem_witness :
    identityPreserved [(⟨1, "x", "A"⟩ : Entry)] [⟨5, "x", "B"⟩, ⟨6, "y", "1"⟩]
        (diffAST ⟨[⟨1, "x", "A"⟩], [⟨2, "App", "b"⟩]⟩
          ⟨[⟨5, "x", "B"⟩, ⟨6, "y", "1"⟩], [⟨7, "App", "b2"⟩]⟩).globals
      ∧ identityPreserved [(⟨2, "App", "b"⟩ : Entry)] [⟨7, "App", "b2"⟩]
          (diffAST ⟨[⟨1, "x", "A"⟩], [⟨2, "App", "b"⟩]⟩
            ⟨[⟨5, "x", "B"⟩, ⟨6, "y", "1"⟩], [⟨7, "App", "b2"⟩]⟩).components :=
  c4_theorem ⟨[⟨1, "x", "A"⟩], [⟨2, "App", "b"⟩]⟩
    ⟨[⟨5, "x", "B"⟩, ⟨6, "y", "1"⟩], [⟨7, "App", "b2"⟩]⟩
    (by decide) (by decide) (by decide) (by decide) (by decide) (by decide)

/-- C6: reconciling a tree with unique keys against a structural deep
copy of itself (same names, same fields, in the same order, with fresh
object identities) changes nothing: no entry is inserted or removed,
every Global and Component object keeps its identity, fields and
position. -/
theorem c6_theorem (p q : Program)
    (hg : (namesOf p.globals).Nodup) (hcm : (namesOf p.components).Nodup)
    (h1 : List.Forall₂ copies p.globals q.globals)
    (h2 : List.Forall₂ copies p.components q.components) :
    diffAST p q = p := by
  show Program.mk (diffASTArrayTypes nameEq p.globals q.globals)
      (diffASTArrayTypes nameEq p.components q.components) = p
  rw [diff_copies_eq hg h1, diff_copies_eq hcm h2]

/-- C6 witness: the theorem evaluated at a concrete program and a deep
copy of it with fresh identity tokens. -/
theorem c6_theorem_witness :
    diffAST ⟨[⟨1, "a", "f"⟩], [⟨2, "App", "b"⟩]⟩
        ⟨[⟨10, "a", "f"⟩], [⟨20, "App", "b"⟩]⟩
      = ⟨[⟨1, "a", "f"⟩], [⟨2, "App", "b"⟩]⟩ :=
  c6_theorem ⟨[⟨1, "a", "f"⟩], [⟨2, "App", "b"⟩]⟩
    ⟨[⟨10, "a", "f"⟩], [⟨20, "App", "b"⟩]⟩ (by decide) (by decide)
    (List.Forall₂.cons ⟨rfl, rfl⟩ List.Forall₂.nil)
    (List.Forall₂.cons ⟨rfl, rfl⟩ List.Forall₂.nil)

/-- C7: on a keyed sequence with unique names, reconciling against an
incoming sequence that is a deep copy except for exactly one fresh key
inserted at some position yields the original sequence with exactly that
one incoming object (itself, not a copy) inserted at the position it
occupies in `incoming`; reconciling against a deep copy with exactly one
entry dropped removes exactly that entry; in both cases all other entries
keep their identity, relative order and field values. -/
theorem c7_theorem :
    (∀ (l₁ l₂ inc₁ inc₂ : List Entry) (x : Entry),
        (namesOf (l₁ ++ l₂)).Nodup →
        x.name ∉ namesOf (l₁ ++ l₂) →
        List.Forall₂ copies l₁ inc₁ → List.Forall₂ copies l₂ inc₂ →
        diffASTArrayTypes nameEq (l₁ ++ l₂) (inc₁ ++ x :: inc₂) = l₁ ++ x :: l₂)
    ∧ (∀ (l₁ l₂ inc₁ inc₂ : List Entry) (y : Entry),
        (namesOf (l₁ ++ y :: l₂)).Nodup →
        List.Forall₂ copies l₁ inc₁ → List.Forall₂ copies l₂ inc₂ →
        diffASTArrayTypes nameEq (l₁ ++ y :: l₂) (inc₁ ++ inc₂) = l₁ ++ l₂) :=
  ⟨fun _ _ _ _ _ h hx h1 h2 => diff_single_add h hx h1 h2,
   fun _ _ _ _ _ h h1 h2 => diff_single_remove h h1 h2⟩

/-- C7 witness: one concrete addition (key `y` inserted between `a` and
`b`) and one concrete removal (key `z` dropped). -/
theorem c7_theorem_witness :
    diffASTArrayTypes nameEq ([(⟨1, "a", "fa"⟩ : Entry)] ++ [⟨2, "b", "fb"⟩])
        ([(⟨3, "a", "fa"⟩ : Entry)] ++ (⟨4, "y", "1"⟩ : Entry) :: [⟨5, "b", "fb"⟩])
      = [(⟨1, "a", "fa"⟩ : Entry)] ++ (⟨4, "y", "1"⟩ : Entry) :: [⟨2, "b", "fb"⟩]
    ∧ diffASTArrayTypes nameEq
        ([(⟨1, "a", "fa"⟩ : Entry)] ++ (⟨6, "z", "fz"⟩ : Entry) :: [⟨2, "b", "fb"⟩])
        ([(⟨3, "a", "fa"⟩ : Entry)] ++ [⟨5, "b", "fb"⟩])
      = [(⟨1, "a", "fa"⟩ : Entry)] ++ [⟨2, "b", "fb"⟩] :=
  ⟨c7_theorem.1 [⟨1, "a", "fa"⟩] [⟨2, "b", "fb"⟩] [⟨3, "a", "fa"⟩] [⟨5, "b", "fb"⟩]
      ⟨4, "y", "1"⟩ (by decide) (by decide)
      (List.Forall₂.cons ⟨rfl, rfl⟩ List.Forall₂.nil)
      (List.Forall₂.cons ⟨rfl, rfl⟩ List.Forall₂.nil),
   c7_theorem.2 [⟨1, "a", "fa"⟩] [⟨2, "b", "fb"⟩] [⟨3, "a", "fa"⟩] [⟨5, "b", "fb"⟩]
      ⟨6, "z", "fz"⟩ (by decide)
      (List.Forall₂.cons ⟨rfl, rfl⟩ List.Forall₂.nil)
      (List.Forall₂.cons ⟨rfl, rfl⟩ List.Forall₂.nil)⟩

/-- C2 counterexample: the claim asserts that when a collaboration peer
adds component `Card2` to the live graph while the graph-to-text pass is
suppressed by the typing guard, the next text-to-graph sync keeps both the
user's text edit and `Card2`.  In this concrete scenario (cached snapshot
holds only `App`, live graph holds `App` and the externally added
`Card2`, the parsed text holds the edited `App`), the sync's second
reconcile pass — `diffAST(reka.program, currentStateRef.current)` —
removes `Card2` because its key is absent from the cached snapshot: the
final live components hold only the edited `App`. -/
theorem c2_counterexample :
    (syncCodeToState (fun _ => Except.ok ⟨[], [⟨4, "App", "edited"⟩]⟩)
        { cache := ⟨[], [⟨1, "App", "old"⟩]⟩,
          live := ⟨[], [⟨2, "App", "old"⟩, ⟨3, "Card2", "card"⟩]⟩,
          currentCodeString := "t", doc := "t",
          isSynchingFromCodeMirror := false, isSynchingFromExternal := false,
          isTyping := true } "code").1.live.components
      = [⟨2, "App", "edited"⟩] := by decide

/-- C2 (amended): after the text-to-graph sync completes, the live graph
reflects the parsed text: the user's edit to component `App` is applied
onto the existing live object (identity preserved, fields taken from the
parse), but any externally added component whose key does not occur in
the parsed text — such as a collaborator's `Card2` — is removed by the
second reconcile pass against the cached snapshot; it does not survive
the sync. -/
theorem c2_theorem (parse : String → Except String Program)
    (s : SyncState) (code : String) (p : Program)
    (app appC pApp : Entry) (card2Name : String)
    (hext : s.isSynchingFromExternal = false)
    (hp : parse code = Except.ok p)
    (hnc : (namesOf s.cache.components).Nodup)
    (hnp : (namesOf p.components).Nodup)
    (hnl : (namesOf s.live.components).Nodup)
    (happ : app ∈ s.live.components)
    (happC : appC ∈ s.cache.components)
    (hnm1 : appC.name = app.name)
    (hpApp : pApp ∈ p.components) (hnm2 : pApp.name = app.name)
    (hcard : card2Name ∉ namesOf p.components) :
    card2Name ∉ namesOf (syncCodeToState parse s code).1.live.components
      ∧ ∃ e ∈ (syncCodeToState parse s code).1.live.components,
          e.id = app.id ∧ e.name = app.name ∧ e.fields = pApp.fields := by
  have hrun : (syncCodeToState parse s code).1.live
      = diffAST s.live (diffAST s.cache p) := by
    simp [syncCodeToState, hext, hp, midSyncState]
  have hpc : (namesOf (diffAST s.cache p).components).Perm (namesOf p.components) :=
    diff_names_perm hnc hnp
  have hndC : (namesOf (diffAST s.cache p).components).Nodup := hpc.symm.nodup hnp
  have hfind1 : findByName p.components appC.name = some pApp := by
    have h := findByName_of_mem hnp hpApp
    rw [hnm2] at h
    rw [hnm1]
    exact h
  obtain ⟨e', he'_mem, he'_id, he'_name, he'_fields⟩ :=
    diff_matched_mem hnc hnp happC hfind1
  have hfind2 : findByName (diffAST s.cache p).components app.name = some e' := by
    have h := findByName_of_mem hndC he'_mem
    rw [he'_name, hnm1] at h
    exact h
  obtain ⟨e2, he2_mem, he2_id, he2_name, he2_fields⟩ :=
    diff_matched_mem hnl hndC happ hfind2
  have hperm2 : (namesOf (diffAST s.live (diffAST s.cache p)).components).Perm
      (namesOf (diffAST s.cache p).components) :=
    diff_names_perm hnl hndC
  constructor
  · rw [hrun]
    intro hc
    exact hcard (hpc.mem_iff.1 (hperm2.mem_iff.1 hc))
  · rw [hrun]
    exact ⟨e2, he2_mem, he2_id, he2_name, by rw [he2_fields, he'_fields]⟩

/-- C2 witness: the amended theorem evaluated at the concrete `Card2`
scenario from the counterexample. -/
theorem c2_theorem_witness :
    "Card2" ∉ namesOf (syncCodeToState
        (fun _ => Except.ok ⟨[], [⟨4, "App", "edited"⟩]⟩)
        { cache := ⟨[], [⟨1, "App", "old"⟩]⟩,
          live := ⟨[], [⟨2, "App", "old"⟩, ⟨3, "Card2", "card"⟩]⟩,
          currentCodeString := "t", doc := "t",
          isSynchingFromCodeMirror := false, isSynchingFromExternal := false,
          isTyping := true } "code").1.live.components
      ∧ ∃ e ∈ (syncCodeToState
          (fun _ => Except.ok ⟨[], [⟨4, "App", "edited"⟩]⟩)
          { cache := ⟨[], [⟨1, "App", "old"⟩]⟩,
            live := ⟨[], [⟨2, "App", "old"⟩, ⟨3, "Card2", "card"⟩]⟩,
            currentCodeString := "t", doc := "t",
            isSynchingFromCodeMirror := false, isSynchingFromExternal := false,
            isTyping := true } "code").1.live.components,
          e.id = 2 ∧ e.name = "App" ∧ e.fields = "edited" :=
  c2_theorem (fun _ => Except.ok ⟨[], [⟨4, "App", "edited"⟩]⟩)
    { cache := ⟨[], [⟨1, "App", "old"⟩]⟩,
      live := ⟨[], [⟨2, "App", "old"⟩, ⟨3, "Card2", "card"⟩]⟩,
      currentCodeString := "t", doc := "t",
      isSynchingFromCodeMirror := false, isSynchingFromExternal := false,
      isTyping := true } "code" ⟨[], [⟨4, "App", "edited"⟩]⟩
    ⟨2, "App", "old"⟩ ⟨1, "App", "old"⟩ ⟨4, "App", "edited"⟩ "Card2"
    rfl rfl (by decide) (by decide) (by decide) (by decide) (by decide)
    (by decide) (by decide) (by decide) (by decide)

/-- C5: on any input text the parser rejects, `syncCodeToState` (when not
suppressed by the external-sync flag) leaves the cached snapshot and the
live graph completely untouched, reports the failure through the status
callback as `error` carrying the parser's message, and returns normally —
the thrown parse error is caught inside the callback and never escapes;
only the transient flags are reset. -/
theorem c5_theorem (parse : String → Except String Program)
    (s : SyncState) (code : String) (msg : String)
    (hext : s.isSynchingFromExternal = false)
    (hp : parse code = Except.error msg) :
    syncCodeToState parse s code
      = ({ s with isSynchingFromCodeMirror := false, isTyping := false },
          some (ParserStatus.error msg)) := by
  simp [syncCodeToState, hext, hp, midSyncState]

/-- C5 witness: the theorem evaluated at a concrete failing parse. -/
theorem c5_theorem_witness :
    syncCodeToState (fun _ => Except.error "unexpected token")
        { cache := ⟨[⟨1, "a", "f"⟩], []⟩,
          live := ⟨[⟨2, "a", "f"⟩], []⟩,
          currentCodeString := "t",
          doc := "t2",
          isSynchingFromCodeMirror := false,
          isSynchingFromExternal := false,
          isTyping := true } "bad code"
      = ({ cache := ⟨[⟨1, "a", "f"⟩], []⟩,
           live := ⟨[⟨2, "a", "f"⟩], []⟩,
           currentCodeString := "t",
           doc := "t2",
           isSynchingFromCodeMirror := false,
           isSynchingFromExternal := false,
           isTyping := false },
          some (ParserStatus.error "unexpected token")) :=
  c5_theorem (fun _ => Except.error "unexpected token")
    { cache := ⟨[⟨1, "a", "f"⟩], []⟩,
      live := ⟨[⟨2, "a", "f"⟩], []⟩,
      currentCodeString := "t",
      doc := "t2",
      isSynchingFromCodeMirror := false,
      isSynchingFromExternal := false,
      isTyping := true } "bad code" "unexpected token" rfl rfl

/-- C8: echo suppression.  While the text-to-graph pass is in flight the
state is `midSyncState s` (the `isSynchingFromCodeMirror` flag is set
before the `reka.change` transaction and cleared only afterwards), and at
any such state `onExternalChange` returns immediately without scheduling
a graph-to-text pass — so the change notification fired by the sync's own
graph mutation is ignored.  Symmetrically, while the graph-to-text
replace is in flight (`isSynchingFromExternal` still set when the editor
transaction is dispatched) `updateListener` ignores the text-change
notification: no status is emitted and no text-to-graph sync is
scheduled.  Hence one keystroke triggers at most one pass per direction
and no ping-pong loop arises. -/
theorem c8_theorem (s s' : SyncState) (hasView docChanged : Bool)
    (hext : s'.isSynchingFromExternal = true) :
    onExternalChange (midSyncState s) hasView = (midSyncState s, false)
      ∧ updateListener s' docChanged = (s', none, false) := by
  constructor
  · simp [onExternalChange, midSyncState]
  · simp [updateListener, hext]

/-- C8 witness: the theorem evaluated at concrete in-flight states. -/
theorem c8_theorem_witness :
    onExternalChange (midSyncState
        { cache := ⟨[], []⟩,
          live := ⟨[], []⟩,
          currentCodeString := "t",
          doc := "t",
          isSynchingFromCodeMirror := false,
          isSynchingFromExternal := false,
          isTyping := false }) true
      = (midSyncState
        { cache := ⟨[], []⟩,
          live := ⟨[], []⟩,
          currentCodeString := "t",
          doc := "t",
          isSynchingFromCodeMirror := false,
          isSynchingFromExternal := false,
          isTyping := false }, false)
    ∧ updateListener
        { cache := ⟨[], []⟩,
          live := ⟨[], []⟩,
          currentCodeString := "t",
          doc := "t2",
          isSynchingFromCodeMirror := false,
          isSynchingFromExternal := true,
          isTyping := false } true
      = ({ cache := ⟨[], []⟩,
           live := ⟨[], []⟩,
           currentCodeString := "t",
           doc := "t2",
           isSynchingFromCodeMirror := false,
           isSynchingFromExternal := true,
           isTyping := false }, none, false) :=
  c8_theorem
    { cache := ⟨[], []⟩,
      live := ⟨[], []⟩,
      currentCodeString := "t",
      doc := "t",
      isSynchingFromCodeMirror := false,
      isSynchingFromExternal := false,
      isTyping := false }
    { cache := ⟨[], []⟩,
      live := ⟨[], []⟩,
      currentCodeString := "t",
      doc := "t2",
      isSynchingFromCodeMirror := false,
      isSynchingFromExternal := true,
      isTyping := false } true true rfl

/-- C9: in the graph-to-text body, when the editor document agrees with
the cached code string, the editor text is replaced wholesale (from
position 0 to the end of the document) and the cached snapshot is set to
a fresh copy of the live graph if and only if printing the live graph
yields text different from the editor's current text; when the printed
text equals the current text, the document, the cached snapshot and the
cached code string are all left unmodified (only the in-flight flag is
cleared) and no transaction is dispatched. -/
theorem c9_theorem (print : Program → String)
    (fromJSON : Program → Program) (s : SyncState)
    (hdoc : s.doc = s.currentCodeString) :
    (print s.live = s.doc →
      externalSyncBody print fromJSON s
        = ({ s with isSynchingFromExternal := false }, none))
    ∧ (print s.live ≠ s.doc →
      externalSyncBody print fromJSON s
        = ({ s with
              cache := fromJSON s.live,
              currentCodeString := print s.live,
              doc := print s.live,
              isSynchingFromExternal := false },
            some { fromPos := 0, toPos := s.doc.length, insert := print s.live })) := by
  have hcond : (print s.live = s.currentCodeString) ↔ (print s.live = s.doc) := by
    rw [hdoc]
  constructor
  · intro h
    simp only [externalSyncBody]
    rw [if_pos (hcond.2 h)]
  · intro h
    simp only [externalSyncBody]
    rw [if_neg (fun hc => h (hcond.1 hc))]

/-- C9 witness: the theorem's differing-text branch evaluated at a
concrete state whose printed graph text differs from the document. -/
theorem c9_theorem_witness :
    externalSyncBody (fun _ => "new code") (fun q => q)
        { cache := ⟨[⟨1, "a", "f"⟩], []⟩,
          live := ⟨[⟨2, "a", "g"⟩], []⟩,
          currentCodeString := "old code",
          doc := "old code",
          isSynchingFromCodeMirror := false,
          isSynchingFromExternal := true,
          isTyping := false }
      = ({ cache := ⟨[⟨2, "a", "g"⟩], []⟩,
           live := ⟨[⟨2, "a", "g"⟩], []⟩,
           currentCodeString := "new code",
           doc := "new code",
           isSynchingFromCodeMirror := false,
           isSynchingFromExternal := false,
           isTyping := false },
          some { fromPos := 0, toPos := "old code".length, insert := "new code" }) :=
  (c9_theorem (fun _ => "new code") (fun q => q)
    { cache := ⟨[⟨1, "a", "f"⟩], []⟩,
      live := ⟨[⟨2, "a", "g"⟩], []⟩,
      currentCodeString := "old code",
      doc := "old code",
      isSynchingFromCodeMirror := false,
      isSynchingFromExternal := true,
      isTyping := false } rfl).2 (by decide)

/-- C10: if the debounced text-to-graph sync fires while the
external-sync flag is set, it returns immediately with the state entirely
unchanged — the text is not parsed, neither the live graph nor the cached
snapshot is mutated, the typing flag is not reset — and the status
callback is not invoked at all, so the `parsing` status emitted on the
keystroke is never followed by a success or error report for that edit. -/
theorem c10_theorem (parse : String → Except String Program)
    (s : SyncState) (code : String)
    (hext : s.isSynchingFromExternal = true) :
    syncCodeToState parse s code = (s, none) := by
  simp [syncCodeToState, hext]

/-- C10 witness: the theorem evaluated at a concrete suppressed call. -/
theorem c10_theorem_witness :
    syncCodeToState (fun _ => Except.ok ⟨[⟨9, "q", "w"⟩], []⟩)
        { cache := ⟨[⟨1, "a", "f"⟩], []⟩,
          live := ⟨[⟨2, "a", "f"⟩], []⟩,
          currentCodeString := "t",
          doc := "t",
          isSynchingFromCodeMirror := false,
          isSynchingFromExternal := true,
          isTyping := true } "code"
      = ({ cache := ⟨[⟨1, "a", "f"⟩], []⟩,
           live := ⟨[⟨2, "a", "f"⟩], []⟩,
           currentCodeString := "t",
           doc := "t",
           isSynchingFromCodeMirror := false,
           isSynchingFromExternal := true,
           isTyping := true }, none) :=
  c10_theorem (fun _ => Except.ok ⟨[⟨9, "q", "w"⟩], []⟩)
    { cache := ⟨[⟨1, "a", "f"⟩], []⟩,
      live := ⟨[⟨2, "a", "f"⟩], []⟩,
      currentCodeString := "t",
      doc := "t",
      isSynchingFromCodeMirror := false,
      isSynchingFromExternal := true,
      isTyping := true } "code" rfl

end RekaSync
